import Mathlib

/-!
Verification of `firmware/peripheral/three_wire.c` from the nfc-smart-tag
repository: a bit-banged half-duplex three-wire serial driver for the
RC-S926 (Felica Plug) companion chip on an AVR microcontroller.

The driver manipulates four 8-bit hardware registers:
`TWSPI_DDR` (pin directions), `TWSPI_PORT` (output levels),
`PCICR` and `PCMSK0` (pin-change interrupt control), and reads the
`TWSPI_PIN` input register.  We model each register as a `Nat` reduced
modulo `2^8` by the write operations exactly where the C code's `uint8_t`
arithmetic truncates, and we record every externally visible action
(register-bit write, microsecond delay, input sample) in an event trace.
-/

namespace ThreeWire

/-- The six bus-line bit positions inside the shared 8-bit port, as named by
the `TWSPI_*` macros of the driver. -/
structure Pins where
  sel : Nat
  clk : Nat
  sw : Nat
  data : Nat
  irq : Nat
  rfdet : Nat

/-- Well-formedness of a pin assignment: every line is one of the 8 bits of
the port and the lines are pairwise distinct bits. -/
def Pins.valid (p : Pins) : Prop :=
  p.sel < 8 ∧ p.clk < 8 ∧ p.sw < 8 ∧ p.data < 8 ∧ p.irq < 8 ∧ p.rfdet < 8 ∧
  p.sel ≠ p.clk ∧ p.sel ≠ p.sw ∧ p.sel ≠ p.data ∧ p.sel ≠ p.irq ∧
  p.sel ≠ p.rfdet ∧ p.clk ≠ p.sw ∧ p.clk ≠ p.data ∧ p.clk ≠ p.irq ∧
  p.clk ≠ p.rfdet ∧ p.sw ≠ p.data ∧ p.sw ≠ p.irq ∧ p.sw ≠ p.rfdet ∧
  p.data ≠ p.irq ∧ p.data ≠ p.rfdet ∧ p.irq ≠ p.rfdet

instance (p : Pins) : Decidable p.valid := by
  unfold Pins.valid; infer_instance

/-- Modelled from the spec: the header `three_wire.h`, which fixes the pin
numbers, is not under `src/`. The source comments fix DataReadyIrq = PB4
(PCINT4) and FieldDetect = PB5 (PCINT5); the spec fixes only that the six
lines share one port.  The four output-capable lines are taken as distinct
bits 0–3.  Every theorem is stated for an arbitrary `Pins.valid` assignment;
this concrete one only instantiates witnesses. -/
def defaultPins : Pins :=
  { sel := 0, clk := 1, sw := 3, data := 2, irq := 4, rfdet := 5 }

/-- The writable hardware registers touched by the driver. -/
structure Regs where
  ddr : Nat
  port : Nat
  pcicr : Nat
  pcmsk0 : Nat
deriving DecidableEq

/-- Externally visible actions of the driver, in program order:
a single-bit write to `TWSPI_PORT` or `TWSPI_DDR`, a busy-wait of the given
number of microseconds (`_delay_us`), or a sample of an input pin's level. -/
inductive Ev where
  | wPort (bit : Nat) (v : Bool)
  | wDdr (bit : Nat) (v : Bool)
  | delay (us : Nat)
  | sample (bit : Nat) (v : Bool)
deriving DecidableEq

/-- `_BV(n)` of `avr/io.h`: `1 << n`. -/
def bv (n : Nat) : Nat := 1 <<< n

/-- `reg |= _BV(n)`. -/
def setBit (r n : Nat) : Nat := r ||| bv n

/-- `reg &= ~_BV(n)` on an 8-bit register: the `int`-typed complement
`~_BV(n)` truncates to the low 8 bits `255 ^^^ _BV(n)` when stored. -/
def clearBit (r n : Nat) : Nat := r &&& (255 ^^^ bv n)

/-- `twspi_init`: configure SEL, CLK and SW as outputs
(`TWSPI_DDR |= _BV(...)` three times). -/
def twspi_init (p : Pins) (s : Regs) : Regs :=
  { s with ddr := setBit (setBit (setBit s.ddr p.sel) p.clk) p.sw }

/-- `twspi_disable`:
`TWSPI_DDR &= ~_BV(TWSPI_SEL) & ~_BV(TWSPI_CLK) & ~_BV(TWSPI_SW);` —
one compound mask clearing all three direction bits. -/
def twspi_disable (p : Pins) (s : Regs) : Regs :=
  { s with ddr :=
      s.ddr &&& ((255 ^^^ bv p.sel) &&& (255 ^^^ bv p.clk) &&& (255 ^^^ bv p.sw)) }

/-- `rcs926_suspend`: `TWSPI_PORT &= ~_BV(TWSPI_SW);` — no delay. -/
def rcs926_suspend (p : Pins) (s : Regs) : Regs × List Ev :=
  ({ s with port := clearBit s.port p.sw }, [.wPort p.sw false])

/-- `rcs926_resume`: `TWSPI_PORT |= _BV(TWSPI_SW); _delay_us(50);`. -/
def rcs926_resume (p : Pins) (s : Regs) : Regs × List Ev :=
  ({ s with port := setBit s.port p.sw }, [.wPort p.sw true, .delay 50])

/-- `rcs926_data_ready`: `return (TWSPI_PIN & _BV(TWSPI_IRQ));` — the
nonzero masked value converts to `true`.  `pin` is the current level of the
`TWSPI_PIN` input register. -/
def rcs926_data_ready (p : Pins) (pin : Nat) : Bool :=
  pin &&& bv p.irq != 0

/-- `rcs926_rf_present`: `return (TWSPI_PIN & _BV(TWSPI_RFDET)) == 0;` —
true iff the active-low field-detect pin reads low. -/
def rcs926_rf_present (p : Pins) (pin : Nat) : Bool :=
  pin &&& bv p.rfdet == 0

/-- `rcs926_wake_up_on_rf(enable)`: if enabled, `PCICR |= _BV(PCIE0)` and
`PCMSK0 |= _BV(PCINT5)`; else only `PCMSK0 &= ~_BV(PCINT5)`.
`PCIE0 = 0` and `PCINT5 = 5` are the AVR `avr/io.h` constants named by the
source comment (RFDET is PB5). -/
def rcs926_wake_up_on_rf (s : Regs) (enable : Bool) : Regs :=
  if enable then
    { s with pcicr := setBit s.pcicr 0, pcmsk0 := setBit s.pcmsk0 5 }
  else
    { s with pcmsk0 := clearBit s.pcmsk0 5 }

/-- `rcs926_wake_up_on_irq(enable)`: if enabled, `PCICR |= _BV(PCIE0)` and
`PCMSK0 |= _BV(PCINT4)`; else only `PCMSK0 &= ~_BV(PCINT4)`.
`PCIE0 = 0` and `PCINT4 = 4` are the AVR constants (IRQ is PB4). -/
def rcs926_wake_up_on_irq (s : Regs) (enable : Bool) : Regs :=
  if enable then
    { s with pcicr := setBit s.pcicr 0, pcmsk0 := setBit s.pcmsk0 4 }
  else
    { s with pcmsk0 := clearBit s.pcmsk0 4 }

/-- `twspi_begin_send`: SEL low, wait 1 µs, DATA direction to output. -/
def twspi_begin_send (p : Pins) (s : Regs) : Regs × List Ev :=
  let s1 := { s with port := clearBit s.port p.sel }
  let s2 := { s1 with ddr := setBit s1.ddr p.data }
  (s2, [.wPort p.sel false, .delay 1, .wDdr p.data true])

/-- `twspi_end_send`: wait 1 µs, DATA direction to input, wait 1 µs,
SEL high. -/
def twspi_end_send (p : Pins) (s : Regs) : Regs × List Ev :=
  let s1 := { s with ddr := clearBit s.ddr p.data }
  let s2 := { s1 with port := setBit s1.port p.sel }
  (s2, [.delay 1, .wDdr p.data false, .delay 1, .wPort p.sel true])

/-- Loop body of `twspi_send`, structurally recursive on the remaining
iteration count of the `do { ... } while (--i);` loop (entered with
`i = 8`, so the body runs exactly 8 times).  Per iteration: CLK low; DATA
set to the top bit (`c & 0x80`); `c <<= 1` (8-bit truncation); 1 µs;
CLK high; 1 µs. -/
def sendLoop (p : Pins) (s : Regs) (c : Nat) : Nat → Regs × List Ev
  | 0 => (s, [])
  | n + 1 =>
    let s1 := { s with port := clearBit s.port p.clk }
    let b : Bool := c &&& 0x80 != 0
    let s2 := if b then { s1 with port := setBit s1.port p.data }
              else { s1 with port := clearBit s1.port p.data }
    let s3 := { s2 with port := setBit s2.port p.clk }
    let r := sendLoop p s3 ((c <<< 1) % 256) n
    (r.1, [.wPort p.clk false, .wPort p.data b, .delay 1,
           .wPort p.clk true, .delay 1] ++ r.2)

/-- `twspi_send(c)`: shift the byte `c` out, MSB first, over 8 clock
cycles. -/
def twspi_send (p : Pins) (s : Regs) (c : Nat) : Regs × List Ev :=
  sendLoop p s c 8

/-- Number of body executions of a `do { ... } while (--len);` loop whose
counter is a `uint8_t`: `len` times for `1 ≤ len ≤ 255`, and 256 times when
`len = 0` (the first `--len` wraps to 255). -/
def cdIters (len : Nat) : Nat :=
  if len % 256 = 0 then 256 else len % 256

/-- Loop body of `twspi_send_buf`, structurally recursive on the remaining
iteration count: `twspi_send(*buf++)` per iteration.  `mem` is the byte
memory, `ptr` the running buffer pointer. -/
def sendBufLoop (p : Pins) (mem : Nat → Nat) (ptr : Nat) (s : Regs) :
    Nat → Regs × List Ev
  | 0 => (s, [])
  | n + 1 =>
    let r1 := twspi_send p s (mem ptr)
    let r2 := sendBufLoop p mem (ptr + 1) r1.1 n
    (r2.1, r1.2 ++ r2.2)

/-- `twspi_send_buf(buf, len)`: `do { twspi_send(*buf++); } while (--len);`
with `len` a `uint8_t` countdown, hence `cdIters len` body executions. -/
def twspi_send_buf (p : Pins) (mem : Nat → Nat) (ptr : Nat) (s : Regs)
    (len : Nat) : Regs × List Ev :=
  sendBufLoop p mem ptr s (cdIters len)

/-- Loop body of `twspi_get`, structurally recursive on the remaining count
of the `for (i = 0; i < 8; i++)` loop.  Per iteration: CLK low; 1 µs;
`data <<= 1` (8-bit truncation); if DATA pin high, `data |= 1`; CLK high;
1 µs.  `inp` is the stream of successive levels of the DATA line at the
sampling instants (the external environment driving `TWSPI_PIN`); one level
is consumed per iteration.  Returns (registers, remaining stream,
accumulator, trace). -/
def getLoop (p : Pins) (s : Regs) (inp : List Bool) (data : Nat) :
    Nat → Regs × List Bool × Nat × List Ev
  | 0 => (s, inp, data, [])
  | n + 1 =>
    let s1 := { s with port := clearBit s.port p.clk }
    let b : Bool := inp.headI
    let d1 := (data <<< 1) % 256
    let d2 := if b then d1 ||| 1 else d1
    let s2 := { s1 with port := setBit s1.port p.clk }
    let r := getLoop p s2 inp.tail d2 n
    (r.1, r.2.1, r.2.2.1,
     [.wPort p.clk false, .delay 1, .sample p.data b,
      .wPort p.clk true, .delay 1] ++ r.2.2.2)

/-- `twspi_get()`: clock in one byte, MSB first, accumulator starting
at 0. -/
def twspi_get (p : Pins) (s : Regs) (inp : List Bool) :
    Regs × List Bool × Nat × List Ev :=
  getLoop p s inp 0 8

/-- Loop body of `twspi_get_buf`, structurally recursive on the remaining
iteration count: `*buf++ = twspi_get();` per iteration.  Returns
(registers, remaining stream, memory, trace). -/
def getBufLoop (p : Pins) (ptr : Nat) (s : Regs) (inp : List Bool)
    (mem : Nat → Nat) : Nat → Regs × List Bool × (Nat → Nat) × List Ev
  | 0 => (s, inp, mem, [])
  | n + 1 =>
    let r1 := twspi_get p s inp
    let mem1 := Function.update mem ptr r1.2.2.1
    let r2 := getBufLoop p (ptr + 1) r1.1 r1.2.1 mem1 n
    (r2.1, r2.2.1, r2.2.2.1, r1.2.2.2 ++ r2.2.2.2)

/-- `twspi_get_buf(buf, len)`: `do { *buf++ = twspi_get(); } while (--len);`
with `len` a `uint8_t` countdown, hence `cdIters len` body executions. -/
def twspi_get_buf (p : Pins) (s : Regs) (inp : List Bool) (mem : Nat → Nat)
    (ptr : Nat) (len : Nat) : Regs × List Bool × (Nat → Nat) × List Ev :=
  getBufLoop p ptr s inp mem (cdIters len)

/-! ### Specification-side trace and value descriptions -/

/-- The five events one bit of `twspi_send` emits when the bit is `b`. -/
def sendBitTrace (p : Pins) (b : Bool) : List Ev :=
  [.wPort p.clk false, .wPort p.data b, .delay 1, .wPort p.clk true, .delay 1]

/-- The trace of `twspi_send c`: 8 clock cycles carrying the bits of `c`,
most-significant first. -/
def sendByteTrace (p : Pins) (c : Nat) : List Ev :=
  (List.range 8).flatMap fun i => sendBitTrace p (c.testBit (7 - i))

/-- The five events one bit of `twspi_get` emits when the sampled level
is `b`. -/
def getBitTrace (p : Pins) (b : Bool) : List Ev :=
  [.wPort p.clk false, .delay 1, .sample p.data b, .wPort p.clk true, .delay 1]

/-- The trace of `twspi_get` sampling the level sequence `bs`. -/
def getByteTrace (p : Pins) (bs : List Bool) : List Ev :=
  bs.flatMap (getBitTrace p)

/-- The byte assembled from a bit sequence, most-significant bit first. -/
def bitsToByte (bs : List Bool) : Nat :=
  bs.foldl (fun a b => 2 * a + (if b then 1 else 0)) 0

/-- A concrete register state (all registers zero) used to instantiate
theorems at concrete inputs. -/
def regs0 : Regs := { ddr := 0, port := 0, pcicr := 0, pcmsk0 := 0 }

/-- The Data-line level sequence encoding the bytes `[0x3C, 0xFF]`,
most-significant bit first. -/
def inp3CFF : List Bool :=
  [false, false, true, true, true, true, false, false,
   true, true, true, true, true, true, true, true]

/-- A Data-line level stream long enough for 256 byte reads. -/
def allOnes2048 : List Bool := List.replicate 2048 true

/-! ### Register-bit lemmas -/

theorem bv_eq (n : Nat) : bv n = 2 ^ n := by
  simp [bv, Nat.one_shiftLeft]

theorem testBit_setBit_self (r n : Nat) : (setBit r n).testBit n = true := by
  simp [setBit, bv_eq, Nat.testBit_two_pow_self]

theorem testBit_setBit_ne (r : Nat) {m n : Nat} (h : m ≠ n) :
    (setBit r n).testBit m = r.testBit m := by
  simp [setBit, bv_eq, Nat.testBit_two_pow_of_ne (Ne.symm h)]

theorem testBit_mask255 {j : Nat} (n : Nat) (hj : j < 8) :
    (255 ^^^ bv n).testBit j = !decide (n = j) := by
  have h255 : (255 : Nat) = 2 ^ 8 - 1 := by norm_num
  rw [bv_eq, h255, Nat.testBit_xor, Nat.testBit_two_pow_sub_one,
    Nat.testBit_two_pow]
  simp [hj]

theorem testBit_clearBit_self (r : Nat) {n : Nat} (hn : n < 8) :
    (clearBit r n).testBit n = false := by
  simp [clearBit, testBit_mask255 n hn]

theorem testBit_clearBit_ne (r : Nat) {m n : Nat} (hm : m < 8) (h : m ≠ n) :
    (clearBit r n).testBit m = r.testBit m := by
  simp [clearBit, testBit_mask255 n hm, Ne.symm h]

theorem and_two_pow_eq_zero_iff (x n : Nat) :
    x &&& 2 ^ n = 0 ↔ x.testBit n = false := by
  rw [Nat.and_two_pow]
  have h2 : 2 ^ n ≠ 0 := (Nat.two_pow_pos n).ne'
  cases h : x.testBit n <;> simp [h, h2]

theorem and128_bne (c : Nat) : (c &&& 0x80 != 0) = c.testBit 7 := by
  have h : (0x80 : Nat) = 2 ^ 7 := by norm_num
  rw [h, Nat.and_two_pow]
  cases hc : c.testBit 7 <;> simp

theorem two_mul_lor_one (a : Nat) : 2 * a ||| 1 = 2 * a + 1 := by
  have h := Nat.mul_add_lt_is_or (i := 1) (b := 1) (by norm_num) a
  simpa [Nat.pow_one] using h.symm

theorem shift_down (c : Nat) {j : Nat} (hj : j < 7) :
    ((c <<< 1) % 256).testBit (j + 1) = c.testBit j := by
  have h256 : (256 : Nat) = 2 ^ 8 := by norm_num
  rw [h256, Nat.testBit_mod_two_pow, Nat.testBit_shiftLeft]
  have h1 : j + 1 < 8 := by omega
  have h2 : j + 1 ≥ 1 := by omega
  simp [h1, h2]

theorem flatMap_congr {α β : Type} {l : List α} {f g : α → List β}
    (h : ∀ a ∈ l, f a = g a) : l.flatMap f = l.flatMap g := by
  rw [List.flatMap_def, List.flatMap_def, List.map_congr_left h]

/-! ### `twspi_send` loop lemmas -/

theorem sendLoop_trace (p : Pins) :
    ∀ (n : Nat) (c : Nat) (s : Regs), n ≤ 8 →
      (sendLoop p s c n).2 =
        (List.range n).flatMap fun i => sendBitTrace p (c.testBit (7 - i)) := by
  intro n
  induction n with
  | zero => intro c s _; simp [sendLoop]
  | succ n ih =>
    intro c s hn
    rw [List.range_succ_eq_map]
    simp only [List.flatMap_cons, List.flatMap_map, Function.comp]
    simp only [sendLoop]
    rw [ih ((c <<< 1) % 256) _ (by omega)]
    have htail : ∀ i ∈ List.range n,
        sendBitTrace p (((c <<< 1) % 256).testBit (7 - i)) =
          sendBitTrace p (c.testBit (7 - Nat.succ i)) := by
      intro i hi
      have hi' : i < n := List.mem_range.mp hi
      have h7 : 7 - i = (6 - i) + 1 := by omega
      have h6 : 7 - Nat.succ i = 6 - i := by omega
      rw [h7, h6, shift_down c (by omega)]
    rw [flatMap_congr htail]
    simp [sendBitTrace, and128_bne]

theorem sendLoop_ddr (p : Pins) :
    ∀ (n c : Nat) (s : Regs), (sendLoop p s c n).1.ddr = s.ddr := by
  intro n
  induction n with
  | zero => intro c s; simp [sendLoop]
  | succ n ih =>
    intro c s
    simp only [sendLoop]
    rw [ih]
    cases hb : (c &&& 0x80 != 0) <;> simp [hb]

theorem sendLoop_pcicr (p : Pins) :
    ∀ (n c : Nat) (s : Regs), (sendLoop p s c n).1.pcicr = s.pcicr := by
  intro n
  induction n with
  | zero => intro c s; simp [sendLoop]
  | succ n ih =>
    intro c s
    simp only [sendLoop]
    rw [ih]
    cases hb : (c &&& 0x80 != 0) <;> simp [hb]

theorem sendLoop_pcmsk0 (p : Pins) :
    ∀ (n c : Nat) (s : Regs), (sendLoop p s c n).1.pcmsk0 = s.pcmsk0 := by
  intro n
  induction n with
  | zero => intro c s; simp [sendLoop]
  | succ n ih =>
    intro c s
    simp only [sendLoop]
    rw [ih]
    cases hb : (c &&& 0x80 != 0) <;> simp [hb]

theorem sendLoop_port_other (p : Pins) :
    ∀ (n c : Nat) (s : Regs) (b : Nat), b < 8 → b ≠ p.clk → b ≠ p.data →
      (sendLoop p s c n).1.port.testBit b = s.port.testBit b := by
  intro n
  induction n with
  | zero => intro c s b _ _ _; simp [sendLoop]
  | succ n ih =>
    intro c s b hb hclk hdata
    simp only [sendLoop]
    rw [ih _ _ b hb hclk hdata]
    cases hbit : (c &&& 0x80 != 0) <;>
      simp [hbit, testBit_setBit_ne _ hclk, testBit_setBit_ne _ hdata,
        testBit_clearBit_ne _ hb hclk, testBit_clearBit_ne _ hb hdata]

theorem sendLoop_clk_preserved (p : Pins) :
    ∀ (n c : Nat) (s : Regs), s.port.testBit p.clk = true →
      (sendLoop p s c n).1.port.testBit p.clk = true := by
  intro n
  induction n with
  | zero => intro c s h; simpa [sendLoop] using h
  | succ n ih =>
    intro c s _
    simp only [sendLoop]
    apply ih
    cases hbit : (c &&& 0x80 != 0) <;> simp [hbit, testBit_setBit_self]

theorem sendLoop_clk_high (p : Pins) :
    ∀ (n c : Nat) (s : Regs), 1 ≤ n →
      (sendLoop p s c n).1.port.testBit p.clk = true := by
  intro n
  induction n with
  | zero => intro c s h; omega
  | succ n _ =>
    intro c s _
    simp only [sendLoop]
    apply sendLoop_clk_preserved
    cases hbit : (c &&& 0x80 != 0) <;> simp [hbit, testBit_setBit_self]

/-! ### `twspi_send_buf` loop lemmas -/

theorem sendBufLoop_trace (p : Pins) (mem : Nat → Nat) :
    ∀ (m ptr : Nat) (s : Regs),
      (sendBufLoop p mem ptr s m).2 =
        (List.range m).flatMap fun k => sendByteTrace p (mem (ptr + k)) := by
  intro m
  induction m with
  | zero => intro ptr s; simp [sendBufLoop]
  | succ m ih =>
    intro ptr s
    rw [List.range_succ_eq_map]
    simp only [List.flatMap_cons, List.flatMap_map, Function.comp]
    simp only [sendBufLoop]
    rw [ih]
    have hhead : (twspi_send p s (mem ptr)).2 = sendByteTrace p (mem ptr) :=
      sendLoop_trace p 8 (mem ptr) s (by omega)
    have htail : ∀ k ∈ List.range m,
        sendByteTrace p (mem (ptr + 1 + k)) =
          sendByteTrace p (mem (ptr + Nat.succ k)) := by
      intro k _
      have : ptr + 1 + k = ptr + Nat.succ k := by omega
      rw [this]
    rw [flatMap_congr htail, hhead]
    simp

/-! ### `twspi_get` loop lemmas -/

theorem getLoop_rest (p : Pins) :
    ∀ (n : Nat) (s : Regs) (inp : List Bool) (a : Nat),
      (getLoop p s inp a n).2.1 = inp.drop n := by
  intro n
  induction n with
  | zero => intro s inp a; simp [getLoop]
  | succ n ih =>
    intro s inp a
    simp only [getLoop]
    rw [ih]
    rw [← List.drop_one, List.drop_drop, Nat.add_comm]

theorem getLoop_trace (p : Pins) :
    ∀ (n : Nat) (s : Regs) (inp : List Bool) (a : Nat), n ≤ inp.length →
      (getLoop p s inp a n).2.2.2 = (inp.take n).flatMap (getBitTrace p) := by
  intro n
  induction n with
  | zero => intro s inp a _; simp [getLoop]
  | succ n ih =>
    intro s inp a hlen
    cases inp with
    | nil => simp at hlen
    | cons x xs =>
      simp only [getLoop]
      rw [ih _ _ _ (by simpa using hlen)]
      simp [getBitTrace, List.take_succ_cons]

theorem getLoop_val (p : Pins) :
    ∀ (n : Nat) (inp : List Bool) (a : Nat) (s : Regs),
      n ≤ inp.length → n ≤ 8 → a < 2 ^ (8 - n) →
      (getLoop p s inp a n).2.2.1 =
        (inp.take n).foldl (fun x b => 2 * x + (if b then 1 else 0)) a := by
  intro n
  induction n with
  | zero => intro inp a s _ _ _; simp [getLoop]
  | succ n ih =>
    intro inp a s hlen hn ha
    cases inp with
    | nil => simp at hlen
    | cons x xs =>
      have heq : 8 - (n + 1) = 7 - n := by omega
      rw [heq] at ha
      have ha128 : a < 128 := by
        have h1 : 2 ^ (7 - n) ≤ 2 ^ 7 := Nat.pow_le_pow_right (by norm_num) (by omega)
        have h7 : (2 : Nat) ^ 7 = 128 := by norm_num
        omega
      have hd1 : (a <<< 1) % 256 = 2 * a := by
        rw [Nat.shiftLeft_eq]
        have h2 : a * 2 ^ 1 = 2 * a := by ring
        rw [h2, Nat.mod_eq_of_lt (by omega)]
      have hd2 : (if x then ((a <<< 1) % 256) ||| 1 else (a <<< 1) % 256) =
          2 * a + (if x then 1 else 0) := by
        cases x <;> simp [hd1, two_mul_lor_one]
      have hbound : 2 * a + (if x then 1 else 0) < 2 ^ (8 - n) := by
        have h87 : 8 - n = (7 - n) + 1 := by omega
        have h2 : (2 : Nat) ^ ((7 - n) + 1) = 2 * 2 ^ (7 - n) := by ring
        rw [h87, h2]
        cases x <;> simp <;> omega
      simp only [getLoop, List.headI, List.tail_cons]
      rw [hd2, ih _ _ _ (by simpa using hlen) (by omega) hbound]
      simp [List.take_succ_cons]

theorem getLoop_ddr (p : Pins) :
    ∀ (n : Nat) (s : Regs) (inp : List Bool) (a : Nat),
      (getLoop p s inp a n).1.ddr = s.ddr := by
  intro n
  induction n with
  | zero => intro s inp a; simp [getLoop]
  | succ n ih =>
    intro s inp a
    simp only [getLoop]
    rw [ih]

theorem getLoop_pcicr (p : Pins) :
    ∀ (n : Nat) (s : Regs) (inp : List Bool) (a : Nat),
      (getLoop p s inp a n).1.pcicr = s.pcicr := by
  intro n
  induction n with
  | zero => intro s inp a; simp [getLoop]
  | succ n ih =>
    intro s inp a
    simp only [getLoop]
    rw [ih]

theorem getLoop_pcmsk0 (p : Pins) :
    ∀ (n : Nat) (s : Regs) (inp : List Bool) (a : Nat),
      (getLoop p s inp a n).1.pcmsk0 = s.pcmsk0 := by
  intro n
  induction n with
  | zero => intro s inp a; simp [getLoop]
  | succ n ih =>
    intro s inp a
    simp only [getLoop]
    rw [ih]

theorem getLoop_port_other (p : Pins) :
    ∀ (n : Nat) (s : Regs) (inp : List Bool) (a : Nat) (b : Nat),
      b < 8 → b ≠ p.clk →
      (getLoop p s inp a n).1.port.testBit b = s.port.testBit b := by
  intro n
  induction n with
  | zero => intro s inp a b _ _; simp [getLoop]
  | succ n ih =>
    intro s inp a b hb hclk
    simp only [getLoop]
    rw [ih _ _ _ b hb hclk]
    simp [testBit_setBit_ne _ hclk, testBit_clearBit_ne _ hb hclk]

theorem getLoop_clk_preserved (p : Pins) :
    ∀ (n : Nat) (s : Regs) (inp : List Bool) (a : Nat),
      s.port.testBit p.clk = true →
      (getLoop p s inp a n).1.port.testBit p.clk = true := by
  intro n
  induction n with
  | zero => intro s inp a h; simpa [getLoop] using h
  | succ n ih =>
    intro s inp a _
    simp only [getLoop]
    apply ih
    simp [testBit_setBit_self]

theorem getLoop_clk_high (p : Pins) :
    ∀ (n : Nat) (s : Regs) (inp : List Bool) (a : Nat), 1 ≤ n →
      (getLoop p s inp a n).1.port.testBit p.clk = true := by
  intro n
  induction n with
  | zero => intro s inp a h; omega
  | succ n _ =>
    intro s inp a _
    simp only [getLoop]
    apply getLoop_clk_preserved
    simp [testBit_setBit_self]

theorem twspi_get_rest (p : Pins) (s : Regs) (inp : List Bool) :
    (twspi_get p s inp).2.1 = inp.drop 8 :=
  getLoop_rest p 8 s inp 0

theorem twspi_get_val (p : Pins) (s : Regs) (inp : List Bool)
    (h : 8 ≤ inp.length) :
    (twspi_get p s inp).2.2.1 = bitsToByte (inp.take 8) :=
  getLoop_val p 8 inp 0 s h (by omega) (by norm_num)

theorem twspi_get_trace (p : Pins) (s : Regs) (inp : List Bool)
    (h : 8 ≤ inp.length) :
    (twspi_get p s inp).2.2.2 = getByteTrace p (inp.take 8) :=
  getLoop_trace p 8 s inp 0 h

/-! ### `twspi_get_buf` loop lemmas -/

theorem getBufLoop_trace (p : Pins) :
    ∀ (m ptr : Nat) (s : Regs) (inp : List Bool) (mem : Nat → Nat),
      8 * m ≤ inp.length →
      (getBufLoop p ptr s inp mem m).2.2.2 =
        (List.range m).flatMap fun k => getByteTrace p ((inp.drop (8 * k)).take 8) := by
  intro m
  induction m with
  | zero => intro ptr s inp mem _; simp [getBufLoop]
  | succ m ih =>
    intro ptr s inp mem hlen
    rw [List.range_succ_eq_map]
    simp only [List.flatMap_cons, List.flatMap_map, Function.comp]
    simp only [getBufLoop]
    rw [twspi_get_rest]
    rw [ih (ptr + 1) _ (inp.drop 8) _ (by simp [List.length_drop]; omega)]
    have hhead : (twspi_get p s inp).2.2.2 = getByteTrace p (inp.take 8) :=
      getLoop_trace p 8 s inp 0 (by omega)
    have htail : ∀ k ∈ List.range m,
        getByteTrace p (((inp.drop 8).drop (8 * k)).take 8) =
          getByteTrace p ((inp.drop (8 * Nat.succ k)).take 8) := by
      intro k _
      rw [List.drop_drop]
      have h8 : 8 + 8 * k = 8 * Nat.succ k := by omega
      rw [h8]
    rw [flatMap_congr htail, hhead]
    simp

theorem getBufLoop_mem (p : Pins) :
    ∀ (m ptr : Nat) (s : Regs) (inp : List Bool) (mem : Nat → Nat),
      8 * m ≤ inp.length →
      (∀ k, k < m →
        (getBufLoop p ptr s inp mem m).2.2.1 (ptr + k) =
          bitsToByte ((inp.drop (8 * k)).take 8)) ∧
      (∀ a, a < ptr → (getBufLoop p ptr s inp mem m).2.2.1 a = mem a) := by
  intro m
  induction m with
  | zero =>
    intro ptr s inp mem _
    exact ⟨fun k hk => absurd hk (by omega), fun a _ => by simp [getBufLoop]⟩
  | succ m ih =>
    intro ptr s inp mem hlen
    have hlen' : 8 * m ≤ (inp.drop 8).length := by
      simp [List.length_drop]; omega
    have hval : (twspi_get p s inp).2.2.1 = bitsToByte (inp.take 8) :=
      getLoop_val p 8 inp 0 s (by omega) (by omega) (by norm_num)
    constructor
    · intro k hk
      cases k with
      | zero =>
        have hframe := (ih (ptr + 1) (twspi_get p s inp).1 (inp.drop 8)
          (Function.update mem ptr (twspi_get p s inp).2.2.1) hlen').2 ptr (by omega)
        simp only [getBufLoop]
        rw [twspi_get_rest]
        simp only [Nat.add_zero, Nat.mul_zero, List.drop_zero]
        rw [hframe]
        rw [Function.update_same, hval]
      | succ j =>
        have hv := (ih (ptr + 1) (twspi_get p s inp).1 (inp.drop 8)
          (Function.update mem ptr (twspi_get p s inp).2.2.1) hlen').1 j (by omega)
        simp only [getBufLoop]
        rw [twspi_get_rest]
        have hadd : ptr + Nat.succ j = ptr + 1 + j := by omega
        rw [hadd, hv, List.drop_drop]
        have h8 : 8 + 8 * j = 8 * Nat.succ j := by omega
        rw [h8]
    · intro a ha
      have hframe := (ih (ptr + 1) (twspi_get p s inp).1 (inp.drop 8)
        (Function.update mem ptr (twspi_get p s inp).2.2.1) hlen').2 a (by omega)
      simp only [getBufLoop]
      rw [twspi_get_rest]
      rw [hframe, Function.update_noteq (by omega)]

/-! ### Claim theorems -/

/-- C1: for every 8-bit value `c`, `twspi_send c` emits exactly 8 Clock
low-then-high cycles; during the i-th cycle the Data line is driven to bit
i of `c` counted from the most significant bit, and each half-cycle is held
1 µs (`sendByteTrace` spells out that event sequence). -/
theorem sendByte_msb_first_trace (p : Pins) (s : Regs) (c : Nat)
    (hc : c < 256) :
    (twspi_send p s c).2 = sendByteTrace p c :=
  sendLoop_trace p 8 c s (by omega)

theorem sendByte_msb_first_trace_witness :
    0xA5 < 256 ∧
    (twspi_send defaultPins regs0 0xA5).2 = sendByteTrace defaultPins 0xA5 :=
  ⟨by decide, sendByte_msb_first_trace defaultPins regs0 0xA5 (by decide)⟩

/-- C3: for every non-empty buffer (a `uint8_t` length, so `1 ≤ len ≤ 255`),
`twspi_send_buf` emits exactly the concatenation of one `twspi_send` trace
per buffer element, in buffer order — one send per element, none skipped,
reordered or duplicated. -/
theorem sendBuffer_in_order (p : Pins) (mem : Nat → Nat) (ptr : Nat)
    (s : Regs) (len : Nat) (h1 : 1 ≤ len) (h2 : len ≤ 255) :
    (twspi_send_buf p mem ptr s len).2 =
      (List.range len).flatMap fun k => sendByteTrace p (mem (ptr + k)) := by
  have hcd : cdIters len = len := by
    unfold cdIters
    rw [Nat.mod_eq_of_lt (by omega), if_neg (by omega)]
  unfold twspi_send_buf
  rw [hcd]
  exact sendBufLoop_trace p mem len ptr s

theorem sendBuffer_in_order_witness :
    (1 ≤ 2 ∧ 2 ≤ 255) ∧
    (twspi_send_buf defaultPins (fun i => 15 * i + 3) 0 regs0 2).2 =
      ((List.range 2).flatMap fun k =>
        sendByteTrace defaultPins ((fun i => 15 * i + 3) (0 + k))) :=
  ⟨by decide,
   sendBuffer_in_order defaultPins (fun i => 15 * i + 3) 0 regs0 2
     (by decide) (by decide)⟩

/-- C4: in every state, `twspi_begin_send` leaves Data's direction output
and Select driven low, and its trace drives Select low before switching
Data to output; `twspi_end_send` leaves Data's direction input and Select
driven high, and its trace switches Data to input before driving Select
high. -/
theorem begin_end_send_directions (p : Pins) (hp : p.valid) (s t : Regs) :
    (twspi_begin_send p s).1.ddr.testBit p.data = true ∧
    (twspi_begin_send p s).1.port.testBit p.sel = false ∧
    (twspi_begin_send p s).2 =
      [Ev.wPort p.sel false, Ev.delay 1, Ev.wDdr p.data true] ∧
    (twspi_end_send p t).1.ddr.testBit p.data = false ∧
    (twspi_end_send p t).1.port.testBit p.sel = true ∧
    (twspi_end_send p t).2 =
      [Ev.delay 1, Ev.wDdr p.data false, Ev.delay 1, Ev.wPort p.sel true] := by
  obtain ⟨hsel, _, _, hdata, _⟩ := hp
  exact ⟨testBit_setBit_self _ _, testBit_clearBit_self _ hsel, rfl,
    testBit_clearBit_self _ hdata, testBit_setBit_self _ _, rfl⟩

theorem begin_end_send_directions_witness :
    ((twspi_begin_send defaultPins regs0).1.ddr.testBit defaultPins.data
        = true) ∧
    ((twspi_end_send defaultPins regs0).1.port.testBit defaultPins.sel
        = true) := by
  have h := begin_end_send_directions defaultPins (by decide) regs0 regs0
  exact ⟨h.1, h.2.2.2.2.1⟩

/-- C5: after `rcs926_wake_up_on_rf true`, `rcs926_wake_up_on_irq true`,
`rcs926_wake_up_on_rf false`, the data-ready mask bit PCINT4 is still set
and the shared enable PCIE0 is still set: disabling one wake source clears
only its own mask bit. -/
theorem wake_disable_keeps_other_armed (s : Regs) :
    (rcs926_wake_up_on_rf
        (rcs926_wake_up_on_irq (rcs926_wake_up_on_rf s true) true)
        false).pcmsk0.testBit 4 = true ∧
    (rcs926_wake_up_on_rf
        (rcs926_wake_up_on_irq (rcs926_wake_up_on_rf s true) true)
        false).pcicr.testBit 0 = true := by
  constructor
  · show (clearBit (setBit (setBit s.pcmsk0 5) 4) 5).testBit 4 = true
    rw [testBit_clearBit_ne _ (by omega) (by omega), testBit_setBit_self]
  · show (setBit (setBit s.pcicr 0) 0).testBit 0 = true
    exact testBit_setBit_self _ _

/-- C7: `rcs926_suspend` drives PowerSwitch low with no delay event, and
`rcs926_resume` run afterwards drives PowerSwitch high and then delays
50 µs before returning. -/
theorem suspend_resume_power (p : Pins) (hp : p.valid) (s : Regs) :
    (rcs926_suspend p s).1.port.testBit p.sw = false ∧
    (rcs926_suspend p s).2 = [Ev.wPort p.sw false] ∧
    (rcs926_resume p (rcs926_suspend p s).1).1.port.testBit p.sw = true ∧
    (rcs926_resume p (rcs926_suspend p s).1).2 =
      [Ev.wPort p.sw true, Ev.delay 50] := by
  obtain ⟨_, _, hsw, _⟩ := hp
  exact ⟨testBit_clearBit_self _ hsw, rfl, testBit_setBit_self _ _, rfl⟩

theorem suspend_resume_power_witness :
    ((rcs926_suspend defaultPins regs0).1.port.testBit defaultPins.sw
        = false) ∧
    ((rcs926_resume defaultPins
        (rcs926_suspend defaultPins regs0).1).2 =
      [Ev.wPort defaultPins.sw true, Ev.delay 50]) := by
  have h := suspend_resume_power defaultPins (by decide) regs0
  exact ⟨h.1, h.2.2.2⟩

/-- C8: `rcs926_rf_present` returns true exactly when the sampled
FieldDetect level is low (the active-low signal inverted). -/
theorem rf_present_iff_low (p : Pins) (pin : Nat) :
    rcs926_rf_present p pin = true ↔ pin.testBit p.rfdet = false := by
  simp only [rcs926_rf_present, bv_eq, beq_iff_eq]
  exact and_two_pow_eq_zero_iff pin p.rfdet

/-- C9: after `twspi_disable`, the Select, Clock and PowerSwitch
direction bits are all cleared (inputs), whatever their previous state. -/
theorem disable_three_inputs (p : Pins) (hp : p.valid) (s : Regs) :
    (twspi_disable p s).ddr.testBit p.sel = false ∧
    (twspi_disable p s).ddr.testBit p.clk = false ∧
    (twspi_disable p s).ddr.testBit p.sw = false := by
  obtain ⟨hsel, hclk, hsw, _⟩ := hp
  refine ⟨?_, ?_, ?_⟩
  · have h := testBit_mask255 (j := p.sel) p.sel hsel
    simp [twspi_disable, Nat.testBit_and, h]
  · have h := testBit_mask255 (j := p.clk) p.clk hclk
    simp [twspi_disable, Nat.testBit_and, h]
  · have h := testBit_mask255 (j := p.sw) p.sw hsw
    simp [twspi_disable, Nat.testBit_and, h]

theorem disable_three_inputs_witness :
    ((twspi_disable defaultPins
        (twspi_init defaultPins { regs0 with ddr := 255 })).ddr.testBit
      defaultPins.sel = false) ∧
    ((twspi_disable defaultPins
        (twspi_init defaultPins { regs0 with ddr := 255 })).ddr.testBit
      defaultPins.clk = false) := by
  have h := disable_three_inputs defaultPins (by decide)
    (twspi_init defaultPins { regs0 with ddr := 255 })
  exact ⟨h.1, h.2.1⟩

/-- C2: `twspi_get` clocks in 8 externally driven Data levels (generating
the clock itself, one low/high cycle per bit, as its trace shows) and
returns the byte assembled most-significant-bit first; for `1 ≤ n ≤ 255`
(`len` is a `uint8_t`), `twspi_get_buf n` performs exactly `n` `twspi_get`
calls in order and stores the i-th byte at offset i.  In particular, with
Data driven to the bits of `[0x3C, 0xFF]`, a 2-byte read returns
`[0x3C, 0xFF]` in that order (see the witness). -/
theorem getByte_getBuffer_order (p : Pins) (s : Regs) (inp : List Bool)
    (mem : Nat → Nat) (ptr n : Nat) (h1 : 1 ≤ n) (h2 : n ≤ 255)
    (hlen : 8 * n ≤ inp.length) :
    (twspi_get p s inp).2.2.1 = bitsToByte (inp.take 8) ∧
    (twspi_get p s inp).2.2.2 = getByteTrace p (inp.take 8) ∧
    (twspi_get_buf p s inp mem ptr n).2.2.2 =
      ((List.range n).flatMap fun k =>
        getByteTrace p ((inp.drop (8 * k)).take 8)) ∧
    ∀ k, k < n → (twspi_get_buf p s inp mem ptr n).2.2.1 (ptr + k) =
      bitsToByte ((inp.drop (8 * k)).take 8) := by
  have h8 : 8 ≤ inp.length := by omega
  have hcd : cdIters n = n := by
    unfold cdIters
    rw [Nat.mod_eq_of_lt (by omega), if_neg (by omega)]
  refine ⟨twspi_get_val p s inp h8, twspi_get_trace p s inp h8, ?_, ?_⟩
  · unfold twspi_get_buf
    rw [hcd]
    exact getBufLoop_trace p n ptr s inp mem hlen
  · unfold twspi_get_buf
    rw [hcd]
    exact fun k hk => (getBufLoop_mem p n ptr s inp mem hlen).1 k hk

theorem getByte_getBuffer_order_witness :
    (twspi_get_buf defaultPins regs0 inp3CFF (fun _ => 0) 0 2).2.2.1 0
        = 0x3C ∧
    (twspi_get_buf defaultPins regs0 inp3CFF (fun _ => 0) 0 2).2.2.1 1
        = 0xFF := by
  have h := getByte_getBuffer_order defaultPins regs0 inp3CFF (fun _ => 0)
    0 2 (by decide) (by decide) (by decide)
  have h0 := h.2.2.2 0 (by decide)
  have h1 := h.2.2.2 1 (by decide)
  have e0 : bitsToByte ((inp3CFF.drop (8 * 0)).take 8) = 0x3C := by decide
  have e1 : bitsToByte ((inp3CFF.drop (8 * 1)).take 8) = 0xFF := by decide
  rw [e0] at h0
  rw [e1] at h1
  exact ⟨h0, h1⟩

/-- C6: called with length 0, the `uint8_t` countdown `--len` wraps modulo
`2^8`, so `twspi_send_buf` performs 256 sends reading the 256 bytes from
`ptr` on, and `twspi_get_buf` performs 256 reads writing the 256 cells from
`ptr` on — a massive buffer over-run instead of doing nothing; the call is
neither rejected nor skipped. -/
theorem zero_length_wraps_256 (p : Pins) (mem : Nat → Nat) (ptr : Nat)
    (s : Regs) (inp : List Bool) (hlen : 8 * 256 ≤ inp.length) :
    (twspi_send_buf p mem ptr s 0).2 =
      ((List.range 256).flatMap fun k => sendByteTrace p (mem (ptr + k))) ∧
    (twspi_get_buf p s inp mem ptr 0).2.2.2 =
      ((List.range 256).flatMap fun k =>
        getByteTrace p ((inp.drop (8 * k)).take 8)) ∧
    ∀ k, k < 256 → (twspi_get_buf p s inp mem ptr 0).2.2.1 (ptr + k) =
      bitsToByte ((inp.drop (8 * k)).take 8) := by
  have hcd : cdIters 0 = 256 := rfl
  refine ⟨?_, ?_, ?_⟩
  · unfold twspi_send_buf
    rw [hcd]
    exact sendBufLoop_trace p mem 256 ptr s
  · unfold twspi_get_buf
    rw [hcd]
    exact getBufLoop_trace p 256 ptr s inp mem hlen
  · unfold twspi_get_buf
    rw [hcd]
    exact (getBufLoop_mem p 256 ptr s inp mem hlen).1

theorem zero_length_wraps_256_witness :
    (twspi_get_buf defaultPins regs0 allOnes2048 (fun _ => 0) 0 0).2.2.1
      (0 + 3) = 255 := by
  have h := zero_length_wraps_256 defaultPins (fun _ => 0) 0 regs0
    allOnes2048 (by norm_num [allOnes2048])
  have h3 := h.2.2 3 (by decide)
  have e : bitsToByte ((allOnes2048.drop (8 * 3)).take 8) = 255 := by decide
  rw [e] at h3
  exact h3

/-- C10: `twspi_send` and `twspi_get` both leave Clock driven high and
touch nothing but the Clock line (plus, for `twspi_send`, the Data level):
directions, Select, PowerSwitch and the wake-source interrupt registers are
unchanged, so repeated byte transfers preserve the bus orientation set up
by `twspi_begin_send`/`twspi_end_send`. -/
theorem send_get_frame (p : Pins) (hp : p.valid) (s : Regs) (c : Nat)
    (inp : List Bool) :
    (twspi_send p s c).1.port.testBit p.clk = true ∧
    (twspi_send p s c).1.port.testBit p.sel = s.port.testBit p.sel ∧
    (twspi_send p s c).1.port.testBit p.sw = s.port.testBit p.sw ∧
    (twspi_send p s c).1.ddr = s.ddr ∧
    (twspi_send p s c).1.pcicr = s.pcicr ∧
    (twspi_send p s c).1.pcmsk0 = s.pcmsk0 ∧
    (twspi_get p s inp).1.port.testBit p.clk = true ∧
    (twspi_get p s inp).1.port.testBit p.sel = s.port.testBit p.sel ∧
    (twspi_get p s inp).1.port.testBit p.sw = s.port.testBit p.sw ∧
    (twspi_get p s inp).1.port.testBit p.data = s.port.testBit p.data ∧
    (twspi_get p s inp).1.ddr = s.ddr ∧
    (twspi_get p s inp).1.pcicr = s.pcicr ∧
    (twspi_get p s inp).1.pcmsk0 = s.pcmsk0 := by
  obtain ⟨hsel, hclk, hsw, hdata, _, _, hselclk, hselsw, hseldata, _, _,
    hclksw, hclkdata, _, _, hswdata, _⟩ := hp
  refine ⟨sendLoop_clk_high p 8 c s (by omega),
    sendLoop_port_other p 8 c s p.sel hsel hselclk hseldata,
    sendLoop_port_other p 8 c s p.sw hsw (Ne.symm hclksw) hswdata,
    sendLoop_ddr p 8 c s, sendLoop_pcicr p 8 c s, sendLoop_pcmsk0 p 8 c s,
    getLoop_clk_high p 8 s inp 0 (by omega),
    getLoop_port_other p 8 s inp 0 p.sel hsel hselclk,
    getLoop_port_other p 8 s inp 0 p.sw hsw (Ne.symm hclksw),
    getLoop_port_other p 8 s inp 0 p.data hdata (Ne.symm hclkdata),
    getLoop_ddr p 8 s inp 0, getLoop_pcicr p 8 s inp 0,
    getLoop_pcmsk0 p 8 s inp 0⟩

theorem send_get_frame_witness :
    (twspi_send defaultPins regs0 0xA5).1.port.testBit defaultPins.clk
        = true ∧
    (twspi_get defaultPins regs0 (List.replicate 8 true)).1.ddr
        = regs0.ddr := by
  have h := send_get_frame defaultPins (by decide) regs0 0xA5
    (List.replicate 8 true)
  exact ⟨h.1, h.2.2.2.2.2.2.2.2.2.2.1⟩

end ThreeWire
